import Mathlib

/-!
Shallow embedding of the distributed Mixture-of-Experts routing core in
`assets/Mixture-of-Experts/moe_torch.py` (class `MoE`, method `forward`).

The whole multi-worker forward pass is modelled as one pure function over
the joint state of all workers: every collective (`all_gather`,
`all_to_all`, `all_to_all_single`) is replaced by its deterministic
semantics (worker `e` receives, from worker `j`, exactly the block worker
`j` addressed to rank `e`, blocks concatenated in rank order).  Tensors
are nested lists of rationals; the router (`self.router`, an opaque DNN)
is an input `probs` per worker, and the expert (`self.expert`, an opaque
per-token FeedForward) is an input function `exp : ℕ → Token → Token`
(worker index → token map).  Fallible tensor operations (`torch.stack` on
an empty list, `view` on a size mismatch) are modelled with `Option`.
The default configuration path `drop_last=False` is modelled: batch
starts are the cumulative sums of the all-gathered per-worker batch
sizes (lines 54-58).
-/

namespace MoE

/-- A token: a feature vector of rationals (last tensor dimension, width C). -/
abbrev Token := List ℚ

/-- Static configuration shared by all workers: number of workers/experts
(`dist.get_world_size`), `k`, `capacity_factor`, `padding_val`, feature
width `C` and per-worker sequence length `T`. -/
structure Cfg where
  W : ℕ
  k : ℕ
  cf : ℚ
  padVal : ℚ
  C : ℕ
  T : ℕ

/-- Per-worker data: the local input batch `x` (B × T tokens) and the
router output `probs = router(x)` (B × T × num_experts scores), taken as
an opaque input since the router DNN is an external collaborator. -/
structure WorkerData where
  x : List (List Token)
  probs : List (List (List ℚ))

/-- Python `int(...)` on a (nonnegative-denominator) rational: truncation
toward zero, `num tdiv den`. -/
def pyInt (q : ℚ) : ℤ :=
  q.num.tdiv q.den

/-- Line 94: `capacity = int(T / self.num_experts * self.capacity_factor)`. -/
def capacityZ (cfg : Cfg) : ℤ :=
  pyInt ((cfg.T : ℚ) / (cfg.W : ℚ) * cfg.cf)

/-- The capacity as a natural number (it is nonnegative whenever
`capacity_factor ≥ 0`), used to index buffers. -/
def capacity (cfg : Cfg) : ℕ :=
  (capacityZ cfg).toNat

/-- The selection order of `torch.topk` on the expert axis: larger score
first, ties broken by the lower expert index. -/
def tkRel (a b : ℕ × ℚ) : Prop :=
  b.2 < a.2 ∨ (a.2 = b.2 ∧ a.1 ≤ b.1)

instance : DecidableRel tkRel := fun a b => by
  unfold tkRel; infer_instance

instance : IsTotal (ℕ × ℚ) tkRel where
  total a b := by
    unfold tkRel
    rcases lt_trichotomy a.2 b.2 with h | h | h
    · exact Or.inr (Or.inl h)
    · rcases Nat.le_total a.1 b.1 with h1 | h1
      · exact Or.inl (Or.inr ⟨h, h1⟩)
      · exact Or.inr (Or.inr ⟨h.symm, h1⟩)
    · exact Or.inl (Or.inl h)

instance : IsTrans (ℕ × ℚ) tkRel where
  trans a b c hab hbc := by
    unfold tkRel at *
    rcases hab with h1 | ⟨h1, h1i⟩
    · rcases hbc with h2 | ⟨h2, _⟩
      · exact Or.inl (h2.trans h1)
      · exact Or.inl (h2 ▸ h1)
    · rcases hbc with h2 | ⟨h2, h2i⟩
      · exact Or.inl (h1 ▸ h2)
      · exact Or.inr ⟨h1.trans h2, h1i.trans h2i⟩

/-- Line 62: `torch.topk(probs, k)` on one score vector — the `k` best
`(expert index, score)` pairs, scores descending, ties by lower index. -/
def topkOf (k : ℕ) (scores : List ℚ) : List (ℕ × ℚ) :=
  (scores.enum.insertionSort tkRel).take k

/-- The top-k assignment of element `(b, t)` on one worker. -/
def topkAt (cfg : Cfg) (w : WorkerData) (b t : ℕ) : List (ℕ × ℚ) :=
  topkOf cfg.k ((w.probs.getD b []).getD t [])

/-- Lines 65-66: the `(b, t, slot)` coordinates routed to expert `e`, in
lexicographic (row-major `nonzero`) order, paired with the corresponding
router probability (`topk_probs[topk_experts==expert]`). -/
def routedSlots (cfg : Cfg) (w : WorkerData) (e : ℕ) : List ((ℕ × ℕ × ℕ) × ℚ) :=
  (List.range w.x.length).flatMap fun b =>
    (List.range cfg.T).flatMap fun t =>
      (List.range cfg.k).filterMap fun s =>
        match (topkAt cfg w b t).get? s with
        | some ep => if ep.1 = e then some ((b, t, s), ep.2) else none
        | none => none

/-- Line 65: `ids_per_expert[e]`, the metadata rows `(b, t, slot)`. -/
def idsPerExpert (cfg : Cfg) (w : WorkerData) (e : ℕ) : List (ℕ × ℕ × ℕ) :=
  (routedSlots cfg w e).map Prod.fst

/-- Line 66: `probs_per_expert[e]`. -/
def probsPerExpert (cfg : Cfg) (w : WorkerData) (e : ℕ) : List ℚ :=
  (routedSlots cfg w e).map Prod.snd

/-- Line 69: `send_count[e]` as computed on worker `j`. -/
def sendCount (cfg : Cfg) (ws : ℕ → WorkerData) (j e : ℕ) : ℕ :=
  (idsPerExpert cfg (ws j) e).length

/-- Lines 70-71: the `recv_count` buffer worker `e` holds after
`dist.all_to_all(recv_count, send_count)`: entry `j` is the count that
rank `j` addressed to rank `e`. -/
def recvCountVec (cfg : Cfg) (ws : ℕ → WorkerData) (e : ℕ) : List ℕ :=
  (List.range cfg.W).map fun j => sendCount cfg ws j e

/-- Lines 54-58 (`drop_last=False` path): `batch_inits[j]`, the cumulative
sum of the all-gathered per-worker batch sizes. -/
def batchInit (ws : ℕ → WorkerData) (j : ℕ) : ℕ :=
  ((List.range j).map fun i => (ws i).x.length).sum

/-- Lines 74-86 combined: the stream of records worker `e` receives from
the two `all_to_all_single` exchanges, concatenated in sender-rank order;
each record is the metadata row (with the global row id
`batch_inits[j] + b` from line 77) paired with the token `x[b][t]`
(line 83 gathers tokens with the pre-offset coordinates). -/
def recvRecs (cfg : Cfg) (ws : ℕ → WorkerData) (e : ℕ) :
    List ((ℕ × ℕ × ℕ) × Token) :=
  (List.range cfg.W).flatMap fun j =>
    (idsPerExpert cfg (ws j) e).map fun r =>
      ((batchInit ws j + r.1, r.2.1, r.2.2), ((ws j).x.getD r.1 []).getD r.2.1 [])

/-- Line 80: `recv_ids` on worker `e`. -/
def recvIds (cfg : Cfg) (ws : ℕ → WorkerData) (e : ℕ) : List (ℕ × ℕ × ℕ) :=
  (recvRecs cfg ws e).map Prod.fst

/-- Line 86: `recv_toks` on worker `e`. -/
def recvToks (cfg : Cfg) (ws : ℕ → WorkerData) (e : ℕ) : List Token :=
  (recvRecs cfg ws e).map Prod.snd

/-- The column `recv_ids[:,0]` of global row ids. -/
def rowKeys (cfg : Cfg) (ws : ℕ → WorkerData) (e : ℕ) : List ℕ :=
  (recvIds cfg ws e).map fun r => r.1

/-- Line 89: `uniq_rows = recv_ids[:,0].unique(sorted=True)` — sorted
distinct global row ids. -/
def uniqRows (cfg : Cfg) (ws : ℕ → WorkerData) (e : ℕ) : List ℕ :=
  ((rowKeys cfg ws e).insertionSort (· ≤ ·)).dedup

/-- Line 89: `return_counts=True` — occurrences of row id `r`. -/
def rowCount (cfg : Cfg) (ws : ℕ → WorkerData) (e r : ℕ) : ℕ :=
  (rowKeys cfg ws e).count r

/-- Line 89: `recv_row_lens`, counts aligned with `uniq_rows`. -/
def rowLens (cfg : Cfg) (ws : ℕ → WorkerData) (e : ℕ) : List ℕ :=
  (uniqRows cfg ws e).map (rowCount cfg ws e)

/-- Line 90: `recv_row_offsets[i]`, the cumulative counts. -/
def rowOffset (cfg : Cfg) (ws : ℕ → WorkerData) (e i : ℕ) : ℕ :=
  ((rowLens cfg ws e).take i).sum

/-- `l[off : off+len]`, the slice taken by `recv_row_slice` (line 91). -/
def sliceAt (l : List α) (off len : ℕ) : List α :=
  (l.drop off).take len

/-- The `i`-th row-id group of received records, as sliced by lines 91/96. -/
def groupRecs (cfg : Cfg) (ws : ℕ → WorkerData) (e i : ℕ) :
    List ((ℕ × ℕ × ℕ) × Token) :=
  sliceAt (recvRecs cfg ws e) (rowOffset cfg ws e i) ((rowLens cfg ws e).getD i 0)

/-- The tokens of the `i`-th group: `recv_toks[recv_row_slice(i)]`. -/
def groupToks (cfg : Cfg) (ws : ℕ → WorkerData) (e i : ℕ) : List Token :=
  (groupRecs cfg ws e i).map Prod.snd

/-- A padding token: `C` copies of `padding_val`. -/
def padTok (cfg : Cfg) : Token :=
  List.replicate cfg.C cfg.padVal

/-- `F.pad(toks, (0,0,0,amt), value)` on a 2D tensor: `amt ≥ 0` appends
`amt` padding rows at the bottom, a negative `amt` removes `-amt` rows
from the bottom. -/
def padBottom (amt : ℤ) (pt : Token) (toks : List Token) : List Token :=
  if 0 ≤ amt then toks ++ List.replicate amt.toNat pt
  else toks.take (toks.length - (-amt).toNat)

/-- Line 95: `pad_fn`, padding or cropping a group to `capacity` rows. -/
def padFn (cfg : Cfg) (toks : List Token) : List Token :=
  padBottom (capacityZ cfg - toks.length) (padTok cfg) toks

/-- The number of row groups on worker `e` (`len(uniq_rows)`). -/
def nRows (cfg : Cfg) (ws : ℕ → WorkerData) (e : ℕ) : ℕ :=
  (uniqRows cfg ws e).length

/-- Line 96: `batch_toks = torch.stack([...])`.  `torch.stack` of an
empty tensor list raises, hence `none` when there are no groups. -/
def batchToks (cfg : Cfg) (ws : ℕ → WorkerData) (e : ℕ) :
    Option (List (List Token)) :=
  if nRows cfg ws e = 0 then none
  else some ((List.range (nRows cfg ws e)).map fun i => padFn cfg (groupToks cfg ws e i))

/-- Line 99: the local expert applied to the padded batch; the expert
(`FeedForward`) acts tokenwise on the last dimension. -/
def batchOut (cfg : Cfg) (exp : ℕ → Token → Token) (ws : ℕ → WorkerData)
    (e : ℕ) : Option (List (List Token)) :=
  (batchToks cfg ws e).map fun bt => bt.map fun row => row.map (exp e)

/-- Line 100: `batch_row_len[i] = min(recv_row_lens[i], capacity)`. -/
def rowLenB (cfg : Cfg) (ws : ℕ → WorkerData) (e i : ℕ) : ℕ :=
  min ((rowLens cfg ws e).getD i 0) (capacity cfg)

/-- Lines 103-107: the result buffer worker `e` sends back.  `recv_toks`
is reset to `padding_val` and, for each group `i`, positions
`recv_row_offsets[i] .. recv_row_offsets[i]+batch_row_len[i]` are filled
with the expert outputs `batch_toks[i][0..batch_row_len[i]]`; the
remaining (capacity-truncated) positions of the group keep the padding. -/
def resToks (cfg : Cfg) (exp : ℕ → Token → Token) (ws : ℕ → WorkerData)
    (e : ℕ) : Option (List Token) :=
  (batchOut cfg exp ws e).map fun out =>
    (List.range (nRows cfg ws e)).flatMap fun i =>
      (out.getD i []).take (rowLenB cfg ws e i) ++
        List.replicate ((rowLens cfg ws e).getD i 0 - rowLenB cfg ws e i) (padTok cfg)

/-- The offset, inside worker `e`'s receive buffer, of the block that
came from sender `j` (sum of the counts of earlier senders). -/
def revOffset (cfg : Cfg) (ws : ℕ → WorkerData) (e j : ℕ) : ℕ :=
  ((List.range j).map fun i => sendCount cfg ws i e).sum

/-- Sequencing of fallible per-worker steps: the group completes only if
every worker completes (a crashed peer stalls every collective). -/
def seqOpt : List (Option α) → Option (List α)
  | [] => some []
  | o :: rest => o.bind fun a => (seqOpt rest).map fun t => a :: t

/-- Line 108: the reverse `all_to_all_single` — worker `j` receives, from
each expert `e`, the slice of `e`'s result buffer holding the results for
the elements `j` had sent, concatenated in expert order (the layout of
the original `send_toks`). -/
def retToks (cfg : Cfg) (exp : ℕ → Token → Token) (ws : ℕ → WorkerData)
    (j : ℕ) : Option (List Token) :=
  (seqOpt ((List.range cfg.W).map fun e =>
    (resToks cfg exp ws e).map fun res =>
      sliceAt res (revOffset cfg ws e j) (sendCount cfg ws j e))).map List.flatten

/-- The offset, inside worker `j`'s send buffer (and hence inside the
returned results of line 108), of the block addressed to expert `e`. -/
def sendOffset (cfg : Cfg) (ws : ℕ → WorkerData) (j e : ℕ) : ℕ :=
  ((List.range e).map fun i => sendCount cfg ws j i).sum

/-- Line 112: `torch.concatenate(probs_per_expert)` on worker `j`. -/
def weightsOf (cfg : Cfg) (ws : ℕ → WorkerData) (j : ℕ) : List ℚ :=
  (List.range cfg.W).flatMap fun e => probsPerExpert cfg (ws j) e

/-- Line 76: the concatenated metadata rows of worker `j` (the slot
column, used by line 114, is unaffected by the row offset of line 77). -/
def sendSlots (cfg : Cfg) (ws : ℕ → WorkerData) (j : ℕ) : List (ℕ × ℕ × ℕ) :=
  (List.range cfg.W).flatMap fun e => idsPerExpert cfg (ws j) e

/-- Line 112: the returned results scaled rowwise by the router
probabilities. -/
def scaledOf (cfg : Cfg) (exp : ℕ → Token → Token) (ws : ℕ → WorkerData)
    (j : ℕ) : Option (List Token) :=
  (retToks cfg exp ws j).map fun ts =>
    List.zipWith (fun w tok => tok.map fun a => a * w) (weightsOf cfg ws j) ts

/-- Pointwise sum of two tokens. -/
def addTok (a b : Token) : Token :=
  List.zipWith (· + ·) a b

/-- `torch.stack(ls).sum(dim=0)`: pointwise sum of a list of equally
shaped token lists. -/
def sumStack : List (List Token) → List Token
  | [] => []
  | h :: t => t.foldl (fun acc l => List.zipWith addTok acc l) h

/-- Lines 113-114: for `k > 1`, select the rows of each top-k slot
(`x[send_ids[:,-1]==k]`) and sum them; for `k = 1` the scaled rows pass
through. -/
def combineOf (cfg : Cfg) (exp : ℕ → Token → Token) (ws : ℕ → WorkerData)
    (j : ℕ) : Option (List Token) :=
  if cfg.k ≤ 1 then scaledOf cfg exp ws j
  else (scaledOf cfg exp ws j).map fun sc =>
    sumStack ((List.range cfg.k).map fun kk =>
      (((sendSlots cfg ws j).zip sc).filterMap fun p =>
        if p.1.2.2 = kk then some p.2 else none))

/-- Line 115 (and 111): `x.view(B, T, C)` — reinterpret the flat row list
in row-major order; `view` raises unless the element count matches. -/
def viewBTC (cfg : Cfg) (Bj : ℕ) (flat : List Token) :
    Option (List (List Token)) :=
  if flat.length = Bj * cfg.T ∧ ∀ tok ∈ flat, tok.length = cfg.C then
    some ((List.range Bj).map fun b =>
      (List.range cfg.T).map fun t => flat.getD (b * cfg.T + t) [])
  else none

/-- The complete `MoE.forward` as seen by worker `j`: its returned
`(B, T, C)` output batch, `none` if the pass fails on any worker the
collectives synchronize with. -/
def workerForward (cfg : Cfg) (exp : ℕ → Token → Token) (ws : ℕ → WorkerData)
    (j : ℕ) : Option (List (List Token)) :=
  (combineOf cfg exp ws j).bind (viewBTC cfg (ws j).x.length)

/-- The joint forward pass of all `W` workers: the list of their outputs,
`none` if any worker crashes (a crashed peer stalls the whole group). -/
def systemForward (cfg : Cfg) (exp : ℕ → Token → Token) (ws : ℕ → WorkerData) :
    Option (List (List (List Token))) :=
  seqOpt ((List.range cfg.W).map (workerForward cfg exp ws))

/-! ### Generic list helpers -/

theorem seqOpt_some {α : Type _} (d : α) :
    ∀ (l : List (Option α)) (res : List α), seqOpt l = some res →
      res.length = l.length ∧ ∀ i, i < l.length → l.getD i none = some (res.getD i d) := by
  intro l
  induction l with
  | nil =>
    intro res h
    simp only [seqOpt] at h
    cases h
    exact ⟨rfl, fun i hi => absurd hi (by simp)⟩
  | cons o rest ih =>
    intro res h
    simp only [seqOpt] at h
    cases o with
    | none => simp at h
    | some a =>
      simp only [Option.some_bind] at h
      cases hrest : seqOpt rest with
      | none => rw [hrest] at h; simp at h
      | some t =>
        rw [hrest] at h
        simp only [Option.map_some'] at h
        cases h
        rcases ih t hrest with ⟨hlen, hget⟩
        refine ⟨by simp [hlen], ?_⟩
        intro i hi
        cases i with
        | zero => simp
        | succ i2 =>
          simp only [List.getD_cons_succ]
          exact hget i2 (by simpa using hi)

theorem getD_append_add {α : Type _} :
    ∀ (l1 l2 : List α) (n : ℕ) (d : α), (l1 ++ l2).getD (l1.length + n) d = l2.getD n d := by
  intro l1
  induction l1 with
  | nil => intro l2 n d; simp
  | cons a t ih =>
    intro l2 n d
    have : (a :: t).length + n = (t.length + n) + 1 := by
      simp [Nat.succ_add]
    rw [this]
    simpa using ih l2 n d

/-- Index into the flattening of a block list: position
`(sum of lengths of the first i blocks) + m` addresses entry `m` of
block `i`. -/
theorem flatten_getD_blocks {α : Type _} :
    ∀ (ls : List (List α)) (i m : ℕ) (d : α), m < (ls.getD i []).length →
      ls.flatten.getD ((((ls.take i).map List.length).sum) + m) d = (ls.getD i []).getD m d := by
  intro ls
  induction ls with
  | nil => intro i m d hm; simp at hm
  | cons h t ih =>
    intro i m d hm
    cases i with
    | zero =>
      simp only [List.take_zero, List.map_nil, List.sum_nil, Nat.zero_add,
        List.getD_cons_zero, List.flatten_cons]
      rw [List.getD_append _ _ _ _ (by simpa using hm)]
    | succ i2 =>
      simp only [List.getD_cons_succ] at hm ⊢
      have hoff : (((h :: t).take (i2 + 1)).map List.length).sum + m
          = h.length + ((((t.take i2).map List.length).sum) + m) := by
        simp [List.take_cons, Nat.add_assoc]
      rw [List.flatten_cons, hoff, getD_append_add]
      exact ih i2 m d hm

theorem map_getD_range {α : Type _} (l : List α) (d : α) :
    (List.range l.length).map (fun i => l.getD i d) = l := by
  apply List.ext_getElem (by simp)
  intro n h1 h2
  simp only [List.getElem_map, List.getElem_range]
  exact List.getD_eq_getElem l d h2

theorem map_getD_range_take {α : Type _} (l : List α) (d : α) (i : ℕ) (hi : i ≤ l.length) :
    (List.range i).map (fun j => l.getD j d) = l.take i := by
  apply List.ext_getElem (by simp [Nat.min_eq_left hi])
  intro n h1 h2
  simp only [List.getElem_map, List.getElem_range, List.getElem_take]
  exact List.getD_eq_getElem l d (by simp at h2; omega)

theorem sum_map_range_succ (f : ℕ → ℕ) (n : ℕ) :
    (((List.range (n + 1)).map f).sum) = (((List.range n).map f).sum) + f n := by
  rw [List.range_succ]
  simp

theorem sum_map_range_le (f : ℕ → ℕ) {n m : ℕ} (h : n ≤ m) :
    (((List.range n).map f).sum) ≤ (((List.range m).map f).sum) := by
  induction m with
  | zero => simp [Nat.le_zero.mp h]
  | succ m2 ih =>
    rcases Nat.lt_or_ge n (m2 + 1) with h2 | h2
    · calc (((List.range n).map f).sum) ≤ (((List.range m2).map f).sum) :=
            ih (Nat.lt_succ_iff.mp h2)
        _ ≤ _ := by rw [sum_map_range_succ]; omega
    · have : n = m2 + 1 := Nat.le_antisymm h h2
      rw [this]

theorem sliceAt_length {α : Type _} (l : List α) (off len : ℕ)
    (h : off + len ≤ l.length) : (sliceAt l off len).length = len := by
  simp only [sliceAt, List.length_take, List.length_drop]
  omega

theorem sliceAt_getD {α : Type _} (l : List α) (off len m : ℕ) (d : α)
    (hm : m < len) (h : off + len ≤ l.length) :
    (sliceAt l off len).getD m d = l.getD (off + m) d := by
  have h1 : m < (sliceAt l off len).length := by rw [sliceAt_length l off len h]; exact hm
  rw [List.getD_eq_getElem _ _ h1, List.getD_eq_getElem _ _
    (by simp only [sliceAt, List.length_take, List.length_drop] at h1; omega)]
  simp only [sliceAt]
  rw [List.getElem_take, List.getElem_drop]

/-! ### Grouping a key-sorted list by key

`unique(sorted=True, return_counts=True)` followed by slicing at the
cumulative counts (lines 89-91) recovers the per-key groups, provided the
key column is non-decreasing.  The lemmas below prove this for a general
list of records with a `key` projection. -/

/-- The counts, aligned with the deduplicated key values, that
`unique(..., return_counts=True)` returns. -/
def cntsOf {ρ : Type _} (key : ρ → ℕ) (l : List ρ) : List ℕ :=
  (l.map key).dedup.map fun u => (l.map key).count u

theorem cntsOf_sum {ρ : Type _} (key : ρ → ℕ) (l : List ρ) :
    (cntsOf key l).sum = l.length := by
  have h := List.sum_map_count_dedup_eq_length (l.map key)
  simpa [cntsOf] using h

theorem cntsOf_partial_le {ρ : Type _} (key : ρ → ℕ) (l : List ρ) (i : ℕ) :
    ((cntsOf key l).take i).sum + (cntsOf key l).getD i 0 ≤ l.length := by
  rcases Nat.lt_or_ge i (cntsOf key l).length with hi | hi
  · have h1 : ((cntsOf key l).take (i + 1)).sum ≤ (cntsOf key l).sum := by
      have := List.sum_take_add_sum_drop (cntsOf key l) (i + 1)
      omega
    rw [List.take_succ] at h1
    have h2 : (cntsOf key l)[i]? = some ((cntsOf key l).getD i 0) := by
      rw [List.getD_eq_getElem _ _ hi, List.getElem?_eq_getElem hi]
    rw [h2] at h1
    simp only [Option.toList_some, List.sum_append, List.sum_cons, List.sum_nil] at h1
    rw [cntsOf_sum key l] at h1
    omega
  · rw [List.getD_eq_default _ _ hi]
    have h1 : ((cntsOf key l).take i).sum ≤ (cntsOf key l).sum := by
      have := List.sum_take_add_sum_drop (cntsOf key l) i
      omega
    rw [cntsOf_sum key l] at h1
    omega

theorem dropWhile_head_not {α : Type _} (p : α → Bool) :
    ∀ (l : List α) (a : α) (t : List α), l.dropWhile p = a :: t → ¬ p a = true := by
  intro l
  induction l with
  | nil => intro a t h; simp [List.dropWhile] at h
  | cons x l2 ih =>
    intro a t h
    rw [List.dropWhile_cons] at h
    by_cases hx : p x = true
    · rw [if_pos hx] at h; exact ih a t h
    · rw [if_neg hx] at h
      cases h
      exact hx

theorem dedup_replicate_append (k0 : ℕ) (ks : List ℕ) (hk : k0 ∉ ks) :
    ∀ m, (List.replicate (m + 1) k0 ++ ks).dedup = k0 :: ks.dedup := by
  intro m
  induction m with
  | zero =>
    rw [List.replicate_one, List.singleton_append, List.dedup_cons_of_not_mem hk]
  | succ m2 ih =>
    have hsplit : List.replicate (m2 + 2) k0 ++ ks
        = k0 :: (List.replicate (m2 + 1) k0 ++ ks) := by
      rw [List.replicate_succ, List.cons_append]
    rw [hsplit, List.dedup_cons_of_mem
      (by simp [List.mem_append, List.mem_replicate])]
    exact ih

theorem replicate_inj {α : Type _} (a b : α) (n : ℕ) (hn : 0 < n) :
    List.replicate n a = List.replicate n b ↔ a = b := by
  constructor
  · intro h
    cases n with
    | zero => omega
    | succ n2 =>
      rw [List.replicate_succ, List.replicate_succ] at h
      exact (List.cons.injEq _ _ _ _).mp h |>.1
  · intro h; rw [h]

/-- Core grouping lemma: when the keys of `l` are non-decreasing, slicing
`l` at the cumulative `unique` counts yields exactly the per-key groups. -/
theorem sliceAt_cnts_eq_filter {ρ : Type _} (key : ρ → ℕ) :
    ∀ (n : ℕ) (l : List ρ), l.length ≤ n →
      l.Pairwise (fun a b => key a ≤ key b) →
      ∀ i, i < (l.map key).dedup.length →
        sliceAt l (((cntsOf key l).take i).sum) ((cntsOf key l).getD i 0)
          = l.filter fun r => key r == (l.map key).dedup.getD i 0 := by
  intro n
  induction n with
  | zero =>
    intro l hl _ i hi
    have hnil : l = [] := List.length_eq_zero.mp (Nat.le_zero.mp hl)
    subst hnil
    simp at hi
  | succ n ih =>
    intro l hl hsort i hi
    cases l with
    | nil => simp at hi
    | cons r0 l2 =>
      have hA : List.takeWhile (fun r => key r == key r0) (r0 :: l2)
          ++ List.dropWhile (fun r => key r == key r0) (r0 :: l2) = r0 :: l2 :=
        List.takeWhile_append_dropWhile _ _
      have hB : ∀ r ∈ List.takeWhile (fun r => key r == key r0) (r0 :: l2),
          key r = key r0 := by
        intro r hr
        have := List.mem_takeWhile_imp hr
        simpa using this
      have hC : List.takeWhile (fun r => key r == key r0) (r0 :: l2)
          = r0 :: List.takeWhile (fun r => key r == key r0) l2 :=
        List.takeWhile_cons_of_pos (by simp)
      have hglen : 0 < (List.takeWhile (fun r => key r == key r0) (r0 :: l2)).length := by
        rw [hC]; simp
      have hD : ∀ r ∈ List.dropWhile (fun r => key r == key r0) (r0 :: l2),
          key r0 < key r := by
        cases hrw : List.dropWhile (fun r => key r == key r0) (r0 :: l2) with
        | nil => intro r hr; simp [hrw] at hr
        | cons r1 t1 =>
          have h1 : ¬ (key r1 == key r0) = true :=
            dropWhile_head_not (fun r => key r == key r0) (r0 :: l2) r1 t1 hrw
          have hne : key r1 ≠ key r0 := by simpa using h1
          have hsp : (List.takeWhile (fun r => key r == key r0) (r0 :: l2)
              ++ (r1 :: t1)).Pairwise (fun a b => key a ≤ key b) := by
            rw [← hrw, hA]; exact hsort
          rcases List.pairwise_append.mp hsp with ⟨_, hp2, hcross⟩
          have hr0r1 : key r0 ≤ key r1 := by
            refine hcross r0 ?_ r1 (by simp)
            rw [hC]; simp
          have hr0r1s : key r0 < key r1 := lt_of_le_of_ne hr0r1 (Ne.symm hne)
          intro r hr
          rcases List.mem_cons.mp hr with h | h
          · subst h; exact hr0r1s
          · have := (List.pairwise_cons.mp hp2).1 r h
            omega
      have hE : (r0 :: l2).map key
          = (List.takeWhile (fun r => key r == key r0) (r0 :: l2)).map key
            ++ (List.dropWhile (fun r => key r == key r0) (r0 :: l2)).map key := by
        rw [← List.map_append, hA]
      have hF : (List.takeWhile (fun r => key r == key r0) (r0 :: l2)).map key
          = List.replicate
              (List.takeWhile (fun r => key r == key r0) (r0 :: l2)).length (key r0) := by
        rw [List.eq_replicate_iff]
        refine ⟨by simp, ?_⟩
        intro b hb
        rcases List.mem_map.mp hb with ⟨r, hr, hrb⟩
        rw [← hrb]; exact hB r hr
      have hG : key r0 ∉ (List.dropWhile (fun r => key r == key r0) (r0 :: l2)).map key := by
        intro hmem
        rcases List.mem_map.mp hmem with ⟨r, hr, hrb⟩
        have := hD r hr
        omega
      have hH : ((r0 :: l2).map key).dedup
          = key r0 :: ((List.dropWhile (fun r => key r == key r0) (r0 :: l2)).map key).dedup := by
        rw [hE, hF]
        rcases Nat.exists_eq_add_of_lt hglen with ⟨m, hm⟩
        rw [show (List.takeWhile (fun r => key r == key r0) (r0 :: l2)).length = m + 1 by omega]
        exact dedup_replicate_append (key r0) _ hG m
      have hI : ((r0 :: l2).map key).count (key r0)
          = (List.takeWhile (fun r => key r == key r0) (r0 :: l2)).length := by
        rw [hE, List.count_append, hF, List.count_replicate, if_pos (by simp),
          List.count_eq_zero.mpr hG]
        omega
      have hJ : ∀ u ∈ ((List.dropWhile (fun r => key r == key r0) (r0 :: l2)).map key).dedup,
          ((r0 :: l2).map key).count u
            = ((List.dropWhile (fun r => key r == key r0) (r0 :: l2)).map key).count u := by
        intro u hu
        have humem : u ∈ (List.dropWhile (fun r => key r == key r0) (r0 :: l2)).map key :=
          List.mem_dedup.mp hu
        rcases List.mem_map.mp humem with ⟨r, hr, hrb⟩
        have hlt : key r0 < u := hrb ▸ hD r hr
        rw [hE, hF, List.count_append, List.count_replicate]
        rw [if_neg (by simp; omega)]
        omega
      have hK : cntsOf key (r0 :: l2)
          = (List.takeWhile (fun r => key r == key r0) (r0 :: l2)).length
            :: cntsOf key (List.dropWhile (fun r => key r == key r0) (r0 :: l2)) := by
        unfold cntsOf
        rw [hH, List.map_cons, hI]
        congr 1
        exact List.map_congr_left hJ
      have hL : (List.dropWhile (fun r => key r == key r0) (r0 :: l2)).Pairwise
          (fun a b => key a ≤ key b) := by
        have hsp : (List.takeWhile (fun r => key r == key r0) (r0 :: l2)
            ++ List.dropWhile (fun r => key r == key r0) (r0 :: l2)).Pairwise
              (fun a b => key a ≤ key b) := by
          rw [hA]; exact hsort
        exact (List.pairwise_append.mp hsp).2.1
      have hM : (List.dropWhile (fun r => key r == key r0) (r0 :: l2)).length ≤ n := by
        have h1 : (List.takeWhile (fun r => key r == key r0) (r0 :: l2)).length
            + (List.dropWhile (fun r => key r == key r0) (r0 :: l2)).length
            = (r0 :: l2).length := by
          rw [← List.length_append, hA]
        simp only [List.length_cons] at h1 hl
        omega
      cases i with
      | zero =>
        rw [hK]
        simp only [List.take_zero, List.sum_nil, List.getD_cons_zero]
        have hslice : sliceAt (r0 :: l2) 0
            (List.takeWhile (fun r => key r == key r0) (r0 :: l2)).length
            = List.takeWhile (fun r => key r == key r0) (r0 :: l2) := by
          unfold sliceAt
          rw [List.drop_zero]
          have htl := List.take_left
            (List.takeWhile (fun r => key r == key r0) (r0 :: l2))
            (List.dropWhile (fun r => key r == key r0) (r0 :: l2))
          rw [hA] at htl
          exact htl
        rw [hslice, hH]
        simp only [List.getD_cons_zero]
        have hfilter : (r0 :: l2).filter (fun r => key r == key r0)
            = List.takeWhile (fun r => key r == key r0) (r0 :: l2) := by
          conv_lhs => rw [← hA]
          rw [List.filter_append]
          rw [List.filter_eq_self.mpr (by intro a ha; simp [hB a ha])]
          rw [List.filter_eq_nil_iff.mpr (by intro a ha; have := hD a ha; simp; omega)]
          rw [List.append_nil]
        rw [hfilter]
      | succ i2 =>
        have hi2 : i2 < ((List.dropWhile (fun r => key r == key r0) (r0 :: l2)).map key).dedup.length := by
          rw [hH] at hi
          simpa using hi
        have hoff : ((cntsOf key (r0 :: l2)).take (i2 + 1)).sum
            = (List.takeWhile (fun r => key r == key r0) (r0 :: l2)).length
              + ((cntsOf key (List.dropWhile (fun r => key r == key r0) (r0 :: l2))).take i2).sum := by
          rw [hK, List.take_succ_cons, List.sum_cons]
        have hcnt : (cntsOf key (r0 :: l2)).getD (i2 + 1) 0
            = (cntsOf key (List.dropWhile (fun r => key r == key r0) (r0 :: l2))).getD i2 0 := by
          rw [hK, List.getD_cons_succ]
        have hu : ((r0 :: l2).map key).dedup.getD (i2 + 1) 0
            = ((List.dropWhile (fun r => key r == key r0) (r0 :: l2)).map key).dedup.getD i2 0 := by
          rw [hH, List.getD_cons_succ]
        have hslice : sliceAt (r0 :: l2)
            (((cntsOf key (r0 :: l2)).take (i2 + 1)).sum)
            ((cntsOf key (r0 :: l2)).getD (i2 + 1) 0)
            = sliceAt (List.dropWhile (fun r => key r == key r0) (r0 :: l2))
              (((cntsOf key (List.dropWhile (fun r => key r == key r0) (r0 :: l2))).take i2).sum)
              ((cntsOf key (List.dropWhile (fun r => key r == key r0) (r0 :: l2))).getD i2 0) := by
          rw [hoff, hcnt]
          unfold sliceAt
          congr 1
          have hdro := List.drop_left
            (List.takeWhile (fun r => key r == key r0) (r0 :: l2))
            (List.dropWhile (fun r => key r == key r0) (r0 :: l2))
          rw [hA] at hdro
          rw [← List.drop_drop, hdro]
        rw [hslice, hu]
        rw [ih (List.dropWhile (fun r => key r == key r0) (r0 :: l2)) hM hL i2 hi2]
        have hukey : key r0
            < ((List.dropWhile (fun r => key r == key r0) (r0 :: l2)).map key).dedup.getD i2 0 := by
          have hmem : ((List.dropWhile (fun r => key r == key r0) (r0 :: l2)).map key).dedup.getD i2 0
              ∈ ((List.dropWhile (fun r => key r == key r0) (r0 :: l2)).map key).dedup := by
            rw [List.getD_eq_getElem _ _ hi2]
            exact List.getElem_mem hi2
          rcases List.mem_map.mp (List.mem_dedup.mp hmem) with ⟨r, hr, hrb⟩
          rw [← hrb]
          exact hD r hr
        set u := ((List.dropWhile (fun r => key r == key r0) (r0 :: l2)).map key).dedup.getD i2 0
          with hudef
        have hfilg : List.filter (fun r => key r == u)
            (List.takeWhile (fun r => key r == key r0) (r0 :: l2)) = [] := by
          rw [List.filter_eq_nil_iff]
          intro a ha
          have hak := hB a ha
          simp only [beq_iff_eq]
          omega
        conv_rhs => rw [← hA]
        rw [List.filter_append, hfilg, List.nil_append]

/-! ### Sortedness of the received metadata key column -/

theorem pairwise_key_flatMap {ρ : Type _} (key : ρ → ℕ) (f : ℕ → List ρ) (n : ℕ)
    (hin : ∀ j, j < n → (f j).Pairwise fun a b => key a ≤ key b)
    (hcross : ∀ j1 j2, j1 < j2 → j2 < n → ∀ a ∈ f j1, ∀ b ∈ f j2, key a ≤ key b) :
    ((List.range n).flatMap f).Pairwise fun a b => key a ≤ key b := by
  rw [List.flatMap_def, List.pairwise_flatten]
  constructor
  · intro l hl
    rcases List.mem_map.mp hl with ⟨j, hj, hjl⟩
    exact hjl ▸ hin j (List.mem_range.mp hj)
  · rw [List.pairwise_map]
    refine (List.pairwise_lt_range n).imp_of_mem ?_
    intro j1 j2 h1 h2 hlt
    exact hcross j1 j2 hlt (List.mem_range.mp h2)

theorem pairwise_key_const {ρ : Type _} (key : ρ → ℕ) (l : List ρ) (c : ℕ)
    (h : ∀ r ∈ l, key r = c) : l.Pairwise fun a b => key a ≤ key b :=
  List.pairwise_of_forall_mem_list fun a ha b hb => by rw [h a ha, h b hb]

/-- Every record `(topk_experts == e).nonzero()` emits for batch row `b`
indeed carries coordinate `b`, and the coordinates respect the tensor
bounds. -/
theorem routedSlots_mem (cfg : Cfg) (w : WorkerData) (e : ℕ) {r : (ℕ × ℕ × ℕ) × ℚ}
    (hr : r ∈ routedSlots cfg w e) :
    r.1.1 < w.x.length ∧ r.1.2.1 < cfg.T ∧ r.1.2.2 < cfg.k := by
  unfold routedSlots at hr
  rcases List.mem_flatMap.mp hr with ⟨b, hb, hr2⟩
  rcases List.mem_flatMap.mp hr2 with ⟨t, ht, hr3⟩
  rcases List.mem_filterMap.mp hr3 with ⟨s, hs, hmk⟩
  cases hg : (topkAt cfg w b t).get? s with
  | none => rw [hg] at hmk; simp at hmk
  | some ep =>
    rw [hg] at hmk
    have hmk2 : (if ep.1 = e then some ((b, t, s), ep.2) else none) = some r := hmk
    by_cases hep : ep.1 = e
    · rw [if_pos hep] at hmk2
      cases hmk2
      exact ⟨List.mem_range.mp hb, List.mem_range.mp ht, List.mem_range.mp hs⟩
    · rw [if_neg hep] at hmk2
      simp at hmk2

/-- The `b` column of the records emitted for batch row `b`. -/
theorem routedSlots_inner_fst (cfg : Cfg) (w : WorkerData) (e b : ℕ)
    {r : (ℕ × ℕ × ℕ) × ℚ}
    (hr : r ∈ (List.range cfg.T).flatMap fun t =>
      (List.range cfg.k).filterMap fun s =>
        match (topkAt cfg w b t).get? s with
        | some ep => if ep.1 = e then some ((b, t, s), ep.2) else none
        | none => none) :
    r.1.1 = b := by
  rcases List.mem_flatMap.mp hr with ⟨t, ht, hr2⟩
  rcases List.mem_filterMap.mp hr2 with ⟨s, hs, hmk⟩
  cases hg : (topkAt cfg w b t).get? s with
  | none => rw [hg] at hmk; simp at hmk
  | some ep =>
    rw [hg] at hmk
    have hmk2 : (if ep.1 = e then some ((b, t, s), ep.2) else none) = some r := hmk
    by_cases hep : ep.1 = e
    · rw [if_pos hep] at hmk2
      cases hmk2
      rfl
    · rw [if_neg hep] at hmk2
      simp at hmk2

/-- Line 65: `nonzero()` returns coordinates in row-major order, so the
`b` column of `ids_per_expert[e]` is non-decreasing. -/
theorem routedSlots_keys_sorted (cfg : Cfg) (w : WorkerData) (e : ℕ) :
    (routedSlots cfg w e).Pairwise fun a b => a.1.1 ≤ b.1.1 := by
  unfold routedSlots
  exact pairwise_key_flatMap (fun r => r.1.1)
    (fun b => (List.range cfg.T).flatMap fun t =>
      (List.range cfg.k).filterMap fun s =>
        match (topkAt cfg w b t).get? s with
        | some ep => if ep.1 = e then some ((b, t, s), ep.2) else none
        | none => none)
    w.x.length
    (fun b _ => pairwise_key_const _ _ b fun r hr => routedSlots_inner_fst cfg w e b hr)
    (fun j1 j2 hlt _ a ha b hb => by
      show a.1.1 ≤ b.1.1
      rw [routedSlots_inner_fst cfg w e j1 ha, routedSlots_inner_fst cfg w e j2 hb]
      omega)

theorem batchInit_succ (ws : ℕ → WorkerData) (j : ℕ) :
    batchInit ws (j + 1) = batchInit ws j + (ws j).x.length := by
  unfold batchInit
  rw [List.range_succ]
  simp

theorem batchInit_mono (ws : ℕ → WorkerData) : Monotone (batchInit ws) :=
  monotone_nat_of_le_succ fun j => by rw [batchInit_succ]; omega

/-- Implicit invariant behind the grouping of lines 88-91: the global row
ids worker `e` receives are non-decreasing — each sender emits rows in
ascending order and the senders' global-row ranges are disjoint and
increase with rank. -/
theorem recvRecs_keys_sorted (cfg : Cfg) (ws : ℕ → WorkerData) (e : ℕ) :
    (recvRecs cfg ws e).Pairwise fun a b => a.1.1 ≤ b.1.1 := by
  unfold recvRecs
  refine pairwise_key_flatMap (fun r => r.1.1)
    (fun j => (idsPerExpert cfg (ws j) e).map fun r =>
      ((batchInit ws j + r.1, r.2.1, r.2.2), ((ws j).x.getD r.1 []).getD r.2.1 []))
    cfg.W ?_ ?_
  · intro j _
    rw [List.pairwise_map]
    unfold idsPerExpert
    rw [List.pairwise_map]
    refine (routedSlots_keys_sorted cfg (ws j) e).imp ?_
    intro a b h
    simpa using h
  · intro j1 j2 hlt _ a ha b hb
    show a.1.1 ≤ b.1.1
    rcases List.mem_map.mp ha with ⟨ra, hra, hraa⟩
    rcases List.mem_map.mp hb with ⟨rb, hrb, hrbb⟩
    unfold idsPerExpert at hra hrb
    rcases List.mem_map.mp hra with ⟨pa, hpa, hpaa⟩
    rcases List.mem_map.mp hrb with ⟨pb, hpb, hpbb⟩
    have hba : ra.1 < (ws j1).x.length := by
      rw [← hpaa]; exact (routedSlots_mem cfg (ws j1) e hpa).1
    have h1 : a.1.1 = batchInit ws j1 + ra.1 := by rw [← hraa]
    have h2 : b.1.1 = batchInit ws j2 + rb.1 := by rw [← hrbb]
    have h3 : batchInit ws j1 + ra.1 < batchInit ws (j1 + 1) := by
      rw [batchInit_succ]; omega
    have h4 : batchInit ws (j1 + 1) ≤ batchInit ws j2 := batchInit_mono ws hlt
    omega

/-- The key column of the received records. -/
theorem rowKeys_eq (cfg : Cfg) (ws : ℕ → WorkerData) (e : ℕ) :
    rowKeys cfg ws e = (recvRecs cfg ws e).map fun r => r.1.1 := by
  unfold rowKeys recvIds
  rw [List.map_map]
  rfl

theorem uniqRows_eq (cfg : Cfg) (ws : ℕ → WorkerData) (e : ℕ) :
    uniqRows cfg ws e = ((recvRecs cfg ws e).map fun r => r.1.1).dedup := by
  unfold uniqRows
  rw [rowKeys_eq]
  rw [List.Sorted.insertionSort_eq]
  exact List.pairwise_map.mpr (recvRecs_keys_sorted cfg ws e)

theorem rowLens_eq (cfg : Cfg) (ws : ℕ → WorkerData) (e : ℕ) :
    rowLens cfg ws e = cntsOf (fun r => r.1.1) (recvRecs cfg ws e) := by
  unfold rowLens cntsOf rowCount
  rw [uniqRows_eq, rowKeys_eq]

theorem rowOffset_eq (cfg : Cfg) (ws : ℕ → WorkerData) (e i : ℕ) :
    rowOffset cfg ws e i = ((cntsOf (fun r => r.1.1) (recvRecs cfg ws e)).take i).sum := by
  unfold rowOffset
  rw [rowLens_eq]

/-- Slicing the received stream at the cumulative `unique` counts yields
exactly the per-global-row groups. -/
theorem groupRecs_eq_filter (cfg : Cfg) (ws : ℕ → WorkerData) (e i : ℕ)
    (hi : i < nRows cfg ws e) :
    groupRecs cfg ws e i
      = (recvRecs cfg ws e).filter fun r => r.1.1 == (uniqRows cfg ws e).getD i 0 := by
  unfold groupRecs
  rw [rowOffset_eq, rowLens_eq, uniqRows_eq]
  refine sliceAt_cnts_eq_filter (fun r => r.1.1) (recvRecs cfg ws e).length
    (recvRecs cfg ws e) le_rfl (recvRecs_keys_sorted cfg ws e) i ?_
  have h1 : nRows cfg ws e = ((recvRecs cfg ws e).map fun r => r.1.1).dedup.length := by
    unfold nRows
    rw [uniqRows_eq]
  omega

theorem groupRecs_length (cfg : Cfg) (ws : ℕ → WorkerData) (e i : ℕ)
    (hi : i < nRows cfg ws e) :
    (groupRecs cfg ws e i).length = (rowLens cfg ws e).getD i 0 := by
  have hi2 : i < (uniqRows cfg ws e).length := hi
  have hlen : i < (rowLens cfg ws e).length := by
    unfold rowLens
    simpa using hi2
  have hsome : (uniqRows cfg ws e)[i]? = some ((uniqRows cfg ws e).getD i 0) := by
    rw [List.getElem?_eq_getElem hi2, List.getD_eq_getElem _ _ hi2]
  have hval : (rowLens cfg ws e).getD i 0
      = rowCount cfg ws e ((uniqRows cfg ws e).getD i 0) := by
    unfold rowLens
    rw [List.getD_eq_getElem?_getD, List.getElem?_map, hsome]
    rfl
  rw [groupRecs_eq_filter cfg ws e i hi, ← List.countP_eq_length_filter, hval]
  unfold rowCount
  rw [rowKeys_eq, List.count_eq_countP, List.countP_map]
  rfl

/-! ### Buffer shapes along the forward pass -/

theorem getD_map_range {α : Type _} (f : ℕ → α) (n i : ℕ) (hi : i < n) (d : α) :
    (((List.range n).map f).getD i d) = f i := by
  rw [List.getD_eq_getElem _ _ (by simpa using hi), List.getElem_map, List.getElem_range]

theorem capacity_eq (cfg : Cfg) (hcap : 0 ≤ capacityZ cfg) :
    (capacity cfg : ℤ) = capacityZ cfg := by
  unfold capacity
  omega

/-- `pad_fn` (line 95) keeps the first `capacity` rows and pads with
`padding_val` rows up to `capacity`. -/
theorem padFn_eq (cfg : Cfg) (toks : List Token) (hcap : 0 ≤ capacityZ cfg) :
    padFn cfg toks
      = toks.take (capacity cfg)
        ++ List.replicate (capacity cfg - toks.length) (padTok cfg) := by
  unfold padFn padBottom
  have hc := capacity_eq cfg hcap
  by_cases h : 0 ≤ capacityZ cfg - (toks.length : ℤ)
  · rw [if_pos h]
    have h1 : toks.length ≤ capacity cfg := by omega
    have h2 : (capacityZ cfg - (toks.length : ℤ)).toNat = capacity cfg - toks.length := by
      omega
    rw [List.take_of_length_le h1, h2]
  · rw [if_neg h]
    have h2 : capacity cfg - toks.length = 0 := by omega
    have h3 : toks.length - (-(capacityZ cfg - (toks.length : ℤ))).toNat = capacity cfg := by
      omega
    rw [h2, List.replicate_zero, List.append_nil, h3]

theorem padFn_length (cfg : Cfg) (toks : List Token) (hcap : 0 ≤ capacityZ cfg) :
    (padFn cfg toks).length = capacity cfg := by
  rw [padFn_eq cfg toks hcap]
  simp only [List.length_append, List.length_take, List.length_replicate]
  omega

theorem nRows_eq_rowLens_length (cfg : Cfg) (ws : ℕ → WorkerData) (e : ℕ) :
    (rowLens cfg ws e).length = nRows cfg ws e := by
  unfold rowLens nRows
  simp

theorem sum_rowLens (cfg : Cfg) (ws : ℕ → WorkerData) (e : ℕ) :
    (rowLens cfg ws e).sum = (recvRecs cfg ws e).length := by
  rw [rowLens_eq]
  exact cntsOf_sum _ _

theorem batchToks_some (cfg : Cfg) (ws : ℕ → WorkerData) (e : ℕ)
    (h : nRows cfg ws e ≠ 0) :
    batchToks cfg ws e
      = some ((List.range (nRows cfg ws e)).map fun i => padFn cfg (groupToks cfg ws e i)) := by
  unfold batchToks
  rw [if_neg h]

theorem batchOut_some (cfg : Cfg) (exp : ℕ → Token → Token) (ws : ℕ → WorkerData)
    (e : ℕ) (h : nRows cfg ws e ≠ 0) :
    batchOut cfg exp ws e
      = some ((List.range (nRows cfg ws e)).map fun i =>
          (padFn cfg (groupToks cfg ws e i)).map (exp e)) := by
  unfold batchOut
  rw [batchToks_some cfg ws e h]
  rw [Option.map_some']
  rw [List.map_map]
  rfl

theorem rowLenB_le_cap (cfg : Cfg) (ws : ℕ → WorkerData) (e i : ℕ) :
    rowLenB cfg ws e i ≤ capacity cfg := by
  unfold rowLenB
  omega

theorem rowLenB_le_cnt (cfg : Cfg) (ws : ℕ → WorkerData) (e i : ℕ) :
    rowLenB cfg ws e i ≤ (rowLens cfg ws e).getD i 0 := by
  unfold rowLenB
  omega

/-- The result block of group `i` inside the scatter of lines 103-107. -/
def resBlock (cfg : Cfg) (exp : ℕ → Token → Token) (ws : ℕ → WorkerData)
    (e i : ℕ) : List Token :=
  ((padFn cfg (groupToks cfg ws e i)).map (exp e)).take (rowLenB cfg ws e i)
    ++ List.replicate ((rowLens cfg ws e).getD i 0 - rowLenB cfg ws e i) (padTok cfg)

theorem resToks_some (cfg : Cfg) (exp : ℕ → Token → Token) (ws : ℕ → WorkerData)
    (e : ℕ) (h : nRows cfg ws e ≠ 0) :
    resToks cfg exp ws e
      = some ((List.range (nRows cfg ws e)).flatMap (resBlock cfg exp ws e)) := by
  unfold resToks
  rw [batchOut_some cfg exp ws e h, Option.map_some']
  congr 1
  rw [List.flatMap_def, List.flatMap_def]
  congr 1
  apply List.map_congr_left
  intro i hi
  unfold resBlock
  rw [getD_map_range _ _ _ (List.mem_range.mp hi)]

theorem resBlock_length (cfg : Cfg) (exp : ℕ → Token → Token) (ws : ℕ → WorkerData)
    (e i : ℕ) (hcap : 0 ≤ capacityZ cfg) :
    (resBlock cfg exp ws e i).length = (rowLens cfg ws e).getD i 0 := by
  unfold resBlock
  have h1 : ((padFn cfg (groupToks cfg ws e i)).map (exp e)).length = capacity cfg := by
    rw [List.length_map]
    exact padFn_length cfg _ hcap
  have h2 := rowLenB_le_cap cfg ws e i
  have h3 := rowLenB_le_cnt cfg ws e i
  simp only [List.length_append, List.length_take, List.length_replicate, h1]
  omega

theorem map_len_take_blocks (cfg : Cfg) (exp : ℕ → Token → Token)
    (ws : ℕ → WorkerData) (e i : ℕ) (hcap : 0 ≤ capacityZ cfg)
    (hi : i ≤ nRows cfg ws e) :
    ((((List.range (nRows cfg ws e)).map (resBlock cfg exp ws e)).take i).map
      List.length).sum = rowOffset cfg ws e i := by
  rw [← List.map_take, List.take_range, Nat.min_eq_left hi, List.map_map]
  unfold rowOffset
  rw [← map_getD_range_take (rowLens cfg ws e) 0 i
    (by rw [nRows_eq_rowLens_length]; exact hi)]
  congr 1
  apply List.map_congr_left
  intro i2 hi2
  exact resBlock_length cfg exp ws e i2 hcap

theorem resToks_length (cfg : Cfg) (exp : ℕ → Token → Token)
    (ws : ℕ → WorkerData) (e : ℕ) (hcap : 0 ≤ capacityZ cfg)
    {res : List Token} (hres : resToks cfg exp ws e = some res) :
    res.length = (recvRecs cfg ws e).length := by
  have hne : nRows cfg ws e ≠ 0 := by
    intro h0
    rw [resToks, batchOut, batchToks, if_pos h0] at hres
    simp at hres
  rw [resToks_some cfg exp ws e hne] at hres
  cases hres
  rw [List.length_flatMap]
  have h1 : (List.map (List.length ∘ resBlock cfg exp ws e) (List.range (nRows cfg ws e)))
      = List.map (fun i => (rowLens cfg ws e).getD i 0) (List.range (nRows cfg ws e)) :=
    List.map_congr_left fun i _ => resBlock_length cfg exp ws e i hcap
  rw [h1]
  rw [show nRows cfg ws e = (rowLens cfg ws e).length from
    (nRows_eq_rowLens_length cfg ws e).symm]
  rw [map_getD_range]
  exact sum_rowLens cfg ws e

/-- A capacity-truncated receive position is left holding `padding_val`:
lines 103-107 fill only the first `batch_row_len[i]` positions of each
group of the reset `recv_toks` buffer. -/
theorem resToks_getD_trunc (cfg : Cfg) (exp : ℕ → Token → Token)
    (ws : ℕ → WorkerData) (e i m : ℕ) (hcap : 0 ≤ capacityZ cfg)
    {res : List Token} (hres : resToks cfg exp ws e = some res)
    (hi : i < nRows cfg ws e) (hm : rowLenB cfg ws e i ≤ m)
    (hm2 : m < (rowLens cfg ws e).getD i 0) :
    res.getD (rowOffset cfg ws e i + m) [] = padTok cfg := by
  have hne : nRows cfg ws e ≠ 0 := by omega
  rw [resToks_some cfg exp ws e hne] at hres
  cases hres
  rw [List.flatMap_def]
  have hblock : (((List.range (nRows cfg ws e)).map (resBlock cfg exp ws e)).getD i [])
      = resBlock cfg exp ws e i := getD_map_range _ _ _ hi _
  have hlb : m < ((((List.range (nRows cfg ws e)).map (resBlock cfg exp ws e)).getD i [])).length := by
    rw [hblock, resBlock_length cfg exp ws e i hcap]
    exact hm2
  rw [← map_len_take_blocks cfg exp ws e i hcap (Nat.le_of_lt hi)]
  rw [flatten_getD_blocks _ i m [] hlb]
  rw [hblock]
  unfold resBlock
  have hlen1 : (((padFn cfg (groupToks cfg ws e i)).map (exp e)).take
      (rowLenB cfg ws e i)).length = rowLenB cfg ws e i := by
    rw [List.length_take, List.length_map, padFn_length cfg _ hcap]
    have := rowLenB_le_cap cfg ws e i
    omega
  have hsplit : m = (((padFn cfg (groupToks cfg ws e i)).map (exp e)).take
      (rowLenB cfg ws e i)).length + (m - rowLenB cfg ws e i) := by
    rw [hlen1]; omega
  rw [hsplit, getD_append_add]
  rw [List.getD_eq_getElem _ _ (by rw [List.length_replicate]; omega)]
  rw [List.getElem_replicate]

theorem recvRecs_length (cfg : Cfg) (ws : ℕ → WorkerData) (e : ℕ) :
    (recvRecs cfg ws e).length
      = (((List.range cfg.W).map fun j => sendCount cfg ws j e)).sum := by
  unfold recvRecs
  rw [List.length_flatMap]
  congr 1
  apply List.map_congr_left
  intro j _
  simp [sendCount]

theorem revOffset_add_le (cfg : Cfg) (ws : ℕ → WorkerData) (e j : ℕ)
    (hj : j < cfg.W) :
    revOffset cfg ws e j + sendCount cfg ws j e ≤ (recvRecs cfg ws e).length := by
  rw [recvRecs_length cfg ws e]
  unfold revOffset
  calc (((List.range j).map fun i => sendCount cfg ws i e)).sum + sendCount cfg ws j e
      = (((List.range (j + 1)).map fun i => sendCount cfg ws i e)).sum :=
        (sum_map_range_succ _ j).symm
    _ ≤ (((List.range cfg.W).map fun i => sendCount cfg ws i e)).sum :=
        sum_map_range_le _ (Nat.succ_le_of_lt hj)

theorem weightsOf_length (cfg : Cfg) (ws : ℕ → WorkerData) (j : ℕ) :
    (weightsOf cfg ws j).length
      = (((List.range cfg.W).map fun e => sendCount cfg ws j e)).sum := by
  unfold weightsOf
  rw [List.length_flatMap]
  congr 1
  apply List.map_congr_left
  intro e _
  simp [probsPerExpert, sendCount, idsPerExpert]

theorem retToks_blocks (cfg : Cfg) (exp : ℕ → Token → Token)
    (ws : ℕ → WorkerData) (j : ℕ) {ret : List Token}
    (hret : retToks cfg exp ws j = some ret) :
    ∃ lst : List (List Token), ret = lst.flatten ∧ lst.length = cfg.W ∧
      ∀ e, e < cfg.W → ∃ res, resToks cfg exp ws e = some res ∧
        lst.getD e [] = sliceAt res (revOffset cfg ws e j) (sendCount cfg ws j e) := by
  unfold retToks at hret
  cases hseq : seqOpt ((List.range cfg.W).map fun e =>
      (resToks cfg exp ws e).map fun res =>
        sliceAt res (revOffset cfg ws e j) (sendCount cfg ws j e)) with
  | none => rw [hseq] at hret; simp at hret
  | some lst =>
    rw [hseq, Option.map_some'] at hret
    cases hret
    rcases seqOpt_some [] _ lst hseq with ⟨hlen, hget⟩
    refine ⟨lst, rfl, by simpa using hlen, ?_⟩
    intro e he
    have h1 := hget e (by simpa using he)
    rw [getD_map_range _ _ _ he none] at h1
    rcases Option.map_eq_some'.mp h1 with ⟨res, hres, hslice⟩
    exact ⟨res, hres, hslice.symm⟩

theorem retToks_block_length (cfg : Cfg) (exp : ℕ → Token → Token)
    (ws : ℕ → WorkerData) (j e : ℕ) (hj : j < cfg.W) (hcap : 0 ≤ capacityZ cfg)
    {res : List Token} (hres : resToks cfg exp ws e = some res) :
    (sliceAt res (revOffset cfg ws e j) (sendCount cfg ws j e)).length
      = sendCount cfg ws j e := by
  apply sliceAt_length
  rw [resToks_length cfg exp ws e hcap hres]
  exact revOffset_add_le cfg ws e j hj

theorem retToks_length (cfg : Cfg) (exp : ℕ → Token → Token)
    (ws : ℕ → WorkerData) (j : ℕ) (hj : j < cfg.W) (hcap : 0 ≤ capacityZ cfg)
    {ret : List Token} (hret : retToks cfg exp ws j = some ret) :
    ret.length = (((List.range cfg.W).map fun e => sendCount cfg ws j e)).sum := by
  rcases retToks_blocks cfg exp ws j hret with ⟨lst, hflat, hlen, hblk⟩
  subst hflat
  rw [List.length_flatten]
  congr 1
  apply List.ext_getElem (by simp [hlen])
  intro n h1 h2
  simp only [List.length_map] at h1 h2
  rw [List.getElem_map, List.getElem_map, List.getElem_range]
  have hn : n < cfg.W := by simpa using h2
  rcases hblk n hn with ⟨res, hres, hslice⟩
  rw [← List.getD_eq_getElem lst [] (by omega)]
  rw [hslice]
  exact retToks_block_length cfg exp ws j n hj hcap hres

theorem retToks_getD (cfg : Cfg) (exp : ℕ → Token → Token) (ws : ℕ → WorkerData)
    (j e m : ℕ) (hj : j < cfg.W) (he : e < cfg.W) (hcap : 0 ≤ capacityZ cfg)
    (hm : m < sendCount cfg ws j e) {ret : List Token}
    (hret : retToks cfg exp ws j = some ret) :
    ∃ res, resToks cfg exp ws e = some res ∧
      ret.getD (sendOffset cfg ws j e + m) [] = res.getD (revOffset cfg ws e j + m) [] := by
  rcases retToks_blocks cfg exp ws j hret with ⟨lst, hflat, hlen, hblk⟩
  rcases hblk e he with ⟨res, hres, hslice⟩
  refine ⟨res, hres, ?_⟩
  subst hflat
  have hmb : m < (lst.getD e []).length := by
    rw [hslice, retToks_block_length cfg exp ws j e hj hcap hres]
    exact hm
  have hoff : ((lst.take e).map List.length).sum = sendOffset cfg ws j e := by
    unfold sendOffset
    congr 1
    apply List.ext_getElem (by simp [hlen]; omega)
    intro n h1 h2
    simp only [List.length_map, List.length_take] at h1
    rw [List.getElem_map, List.getElem_map, List.getElem_range, List.getElem_take]
    have hn : n < cfg.W := by simp [hlen] at h1; omega
    rcases hblk n hn with ⟨resn, hresn, hslicen⟩
    rw [← List.getD_eq_getElem lst [] (by rw [hlen]; exact hn)]
    rw [hslicen]
    exact retToks_block_length cfg exp ws j n hj hcap hresn
  rw [← hoff, flatten_getD_blocks lst e m [] hmb, hslice]
  apply sliceAt_getD
  · exact hm
  · rw [resToks_length cfg exp ws e hcap hres]
    exact revOffset_add_le cfg ws e j hj

theorem scaledOf_getD (cfg : Cfg) (exp : ℕ → Token → Token) (ws : ℕ → WorkerData)
    (j p : ℕ) {sc ret : List Token} (hret : retToks cfg exp ws j = some ret)
    (hsc : scaledOf cfg exp ws j = some sc)
    (hp1 : p < (weightsOf cfg ws j).length) (hp2 : p < ret.length) :
    sc.getD p [] = (ret.getD p []).map fun a => a * (weightsOf cfg ws j).getD p 0 := by
  unfold scaledOf at hsc
  rw [hret, Option.map_some'] at hsc
  cases hsc
  have hlen : p < (List.zipWith (fun w tok => tok.map fun a => a * w)
      (weightsOf cfg ws j) ret).length := by
    rw [List.length_zipWith]
    omega
  rw [List.getD_eq_getElem _ _ hlen, List.getElem_zipWith,
    ← List.getD_eq_getElem (weightsOf cfg ws j) 0 hp1,
    ← List.getD_eq_getElem ret [] hp2]

/-! ### Concrete instances used to witness and refute claims -/

/-- A 2-worker, top-1 configuration: T = 2, C = 1, capacity factor 1. -/
def exCfg : Cfg := { W := 2, k := 1, cf := 1, padVal := 0, C := 1, T := 2 }

/-- Worker 0 holds tokens `[1], [2]`; the router sends element (0,0) to
expert 1 (weight 2) and element (0,1) to expert 0 (weight 3). -/
def exW0 : WorkerData := { x := [[[1], [2]]], probs := [[[1, 2], [3, 1]]] }

/-- Worker 1 holds tokens `[3], [4]`; the router sends element (1,0) to
expert 0 (weight 5) and element (1,1) to expert 1 (weight 7). -/
def exW1 : WorkerData := { x := [[[3], [4]]], probs := [[[5, 1], [1, 7]]] }

def exWs : ℕ → WorkerData := fun j => if j = 0 then exW0 else exW1

/-- Both experts are the identity map on tokens. -/
def exExp : ℕ → Token → Token := fun _ t => t

/-- A 2-worker input in which every element is routed to expert 0, so the
worker owning expert 1 receives zero elements. -/
def exWsZero : ℕ → WorkerData := fun j =>
  if j = 0 then { x := [[[1], [2]]], probs := [[[2, 1], [2, 1]]] }
  else { x := [[[3], [4]]], probs := [[[2, 1], [2, 1]]] }

/-- A single-worker configuration with capacity 1 (`cf = 1/2`, T = 2) and
a nonzero `padding_val`, so one of the two same-row tokens is truncated. -/
def trCfg : Cfg := { W := 1, k := 1, cf := 1/2, padVal := 5, C := 1, T := 2 }

def trW : WorkerData := { x := [[[3], [4]]], probs := [[[2], [6]]] }

def trWs : ℕ → WorkerData := fun _ => trW

/-! ### Claims -/

/-- C1: the spec demands that, for K=1, the combined output at each
element's own position equal the selected expert's result on that
element's features times its router weight.  The code violates this: the
results return in destination-expert order and `x.view(B,T,C)` (line 115)
reinterprets them without inverting the permutation, so worker 0's output
at position (0,0) is `[6]` — element (0,1)'s scaled result — while the
spec value for element (0,0) is `expert1([1]) * 2 = [2]`. -/
theorem C1_identity_violated :
    systemForward exCfg exExp exWs
      = some [[[[6], [2]]], [[[15], [28]]]] ∧
    (exExp 1 [(1 : ℚ)]).map (fun a => a * 2) = [(2 : ℚ)] ∧
    ([(6 : ℚ)] : Token) ≠ ([(2 : ℚ)] : Token) := by
  refine ⟨by with_unfolding_all decide, by with_unfolding_all decide,
    by with_unfolding_all decide⟩

/-- C5: when the local expert receives zero elements the spec requires a
degenerate zero-row `ExpertBatch` and a completed pass; the code instead
reaches `torch.stack([...])` (line 96) with an empty tensor list, which
raises, so the modelled pass aborts (`none`) on an input whose every
element routes to expert 0. -/
theorem C5_empty_expert_crash :
    recvRecs exCfg exWsZero 1 = [] ∧
    systemForward exCfg exExp exWsZero = none := by
  refine ⟨by with_unfolding_all decide, by with_unfolding_all decide⟩

/-- C3: the capacity computed at line 94, `int(T / num_experts *
capacity_factor)`, equals `⌊T / num_experts * capacity_factor⌋` whenever
the capacity factor is nonnegative; it is a pure function of
`(T, num_experts, capacity_factor)` (the definition `capacity` takes only
the shared configuration, no worker-dependent data), hence identical on
every worker without communication. -/
theorem C3_capacity_floor (cfg : Cfg) (hcf : 0 ≤ cfg.cf) :
    capacityZ cfg = ⌊(cfg.T : ℚ) / (cfg.W : ℚ) * cfg.cf⌋ := by
  have hq : 0 ≤ (cfg.T : ℚ) / (cfg.W : ℚ) * cfg.cf :=
    mul_nonneg (div_nonneg (by positivity) (by positivity)) hcf
  unfold capacityZ pyInt
  rw [Int.tdiv_eq_ediv (Rat.num_nonneg.mpr hq) (by positivity)]
  rw [Rat.floor_def]

theorem C3_capacity_floor_witness :
    (0 : ℚ) ≤ (5 / 4 : ℚ) ∧
    capacityZ { W := 2, k := 1, cf := 5 / 4, padVal := 0, C := 1, T := 4 }
      = ⌊((4 : ℕ) : ℚ) / ((2 : ℕ) : ℚ) * (5 / 4 : ℚ)⌋ :=
  ⟨by norm_num,
   C3_capacity_floor { W := 2, k := 1, cf := 5 / 4, padVal := 0, C := 1, T := 4 }
     (by norm_num)⟩

/-- C6: after the counts all-to-all (lines 68-71), entry `j` of worker
`e`'s `recv_count` equals `send_count[e]` as computed by worker `j`; and,
per expert `e`, the total count sent by all workers equals the number of
records (and tokens) worker `e` actually receives. -/
theorem C6_counts_conserved (cfg : Cfg) (ws : ℕ → WorkerData) (e j : ℕ)
    (hj : j < cfg.W) :
    (recvCountVec cfg ws e).getD j 0 = sendCount cfg ws j e ∧
    (((List.range cfg.W).map fun i => sendCount cfg ws i e)).sum
      = (recvRecs cfg ws e).length ∧
    (recvToks cfg ws e).length = (recvIds cfg ws e).length := by
  refine ⟨?_, (recvRecs_length cfg ws e).symm, ?_⟩
  · unfold recvCountVec
    exact getD_map_range _ _ _ hj 0
  · unfold recvToks recvIds
    simp

theorem C6_counts_conserved_witness :
    (recvCountVec exCfg exWs 0).getD 1 0 = sendCount exCfg exWs 1 0 :=
  (C6_counts_conserved exCfg exWs 0 1 (by decide)).1

/-- C8: `torch.topk` selection (line 62) is stable: among equally scored
experts at the selection boundary, the lower expert index is selected —
if expert `e2` is selected and `e1 < e2` has the same score, `e1` is
selected too. -/
theorem C8_topk_tie_lowest_index (scores : List ℚ) (k e1 e2 : ℕ) (v : ℚ)
    (hlt : e1 < e2) (h1 : scores.get? e1 = some v) (h2 : scores.get? e2 = some v)
    (hsel : e2 ∈ (topkOf k scores).map Prod.fst) :
    e1 ∈ (topkOf k scores).map Prod.fst := by
  unfold topkOf at hsel ⊢
  have hperm : (scores.enum.insertionSort tkRel).Perm scores.enum :=
    List.perm_insertionSort tkRel scores.enum
  have hsorted : List.Pairwise tkRel (scores.enum.insertionSort tkRel) :=
    List.sorted_insertionSort tkRel scores.enum
  rcases List.mem_map.mp hsel with ⟨pr, hpr, hpre⟩
  have hprS : pr ∈ scores.enum.insertionSort tkRel := List.mem_of_mem_take hpr
  have hprenum : pr ∈ scores.enum := hperm.mem_iff.mp hprS
  have hprget : scores.get? pr.1 = some pr.2 :=
    List.mk_mem_enum_iff_get?.mp hprenum
  have hprv : pr.2 = v := by
    rw [hpre, h2] at hprget
    exact (Option.some.inj hprget).symm
  have hpr2 : pr = (e2, v) := Prod.ext hpre hprv
  have h1S : (e1, v) ∈ scores.enum.insertionSort tkRel :=
    hperm.mem_iff.mpr (List.mk_mem_enum_iff_get?.mpr h1)
  rcases List.mem_iff_getElem.mp h1S with ⟨i1, hi1, hgi1⟩
  rcases List.mem_iff_getElem.mp hpr with ⟨i2, hi2, hgi2⟩
  have hi2k : i2 < k := by
    rw [List.length_take] at hi2
    omega
  have hi2S : i2 < (scores.enum.insertionSort tkRel).length := by
    rw [List.length_take] at hi2
    omega
  have hSi2 : (scores.enum.insertionSort tkRel)[i2] = (e2, v) := by
    rw [← hpr2, ← hgi2, List.getElem_take]
  rcases Nat.lt_trichotomy i1 i2 with hc | hc | hc
  · have hmem : (e1, v) ∈ (scores.enum.insertionSort tkRel).take k :=
      List.mem_iff_getElem.mpr ⟨i1, by rw [List.length_take]; omega,
        by rw [List.getElem_take]; exact hgi1⟩
    exact List.mem_map.mpr ⟨(e1, v), hmem, rfl⟩
  · exfalso
    subst hc
    have heq : (e1, v) = (e2, v) := hgi1.symm.trans hSi2
    have := congrArg Prod.fst heq
    simp at this
    omega
  · exfalso
    have hrel : tkRel ((scores.enum.insertionSort tkRel).get ⟨i2, hi2S⟩)
        ((scores.enum.insertionSort tkRel).get ⟨i1, hi1⟩) :=
      List.pairwise_iff_get.mp hsorted ⟨i2, hi2S⟩ ⟨i1, hi1⟩ hc
    rw [List.get_eq_getElem, List.get_eq_getElem, hgi1, hSi2] at hrel
    unfold tkRel at hrel
    rcases hrel with h | ⟨_, h⟩
    · exact lt_irrefl v h
    · omega

theorem C8_topk_tie_lowest_index_witness :
    1 ∈ (topkOf 2 [(1 : ℚ), 2, 2]).map Prod.fst :=
  C8_topk_tie_lowest_index [(1 : ℚ), 2, 2] 2 1 2 2 (by decide)
    (by with_unfolding_all decide) (by with_unfolding_all decide)
    (by with_unfolding_all decide)

/-- C9: on every worker the received metadata's global-row-id column is
non-decreasing (each sender emits ascending rows, and sender ranges are
disjoint and increasing with rank), so slicing the received records at
the cumulative counts of the sorted unique row ids (lines 89-91) yields
exactly the grouping of received records by `global_row_id`. -/
theorem C9_recv_ids_sorted_grouping (cfg : Cfg) (ws : ℕ → WorkerData) (e : ℕ) :
    List.Pairwise (· ≤ ·) (rowKeys cfg ws e) ∧
    ∀ i, i < nRows cfg ws e →
      groupRecs cfg ws e i
        = (recvRecs cfg ws e).filter fun r => r.1.1 == (uniqRows cfg ws e).getD i 0 := by
  constructor
  · rw [rowKeys_eq]
    exact List.pairwise_map.mpr (recvRecs_keys_sorted cfg ws e)
  · exact fun i hi => groupRecs_eq_filter cfg ws e i hi

theorem C9_recv_ids_sorted_grouping_witness :
    groupRecs exCfg exWs 0 0
      = (recvRecs exCfg exWs 0).filter fun r => r.1.1 == (uniqRows exCfg exWs 0).getD 0 0 :=
  (C9_recv_ids_sorted_grouping exCfg exWs 0).2 0 (by with_unfolding_all decide)

/-- C4: each global-row group of received elements is cropped to its
first `capacity` elements when oversized (trailing elements in grouping
order are dropped by the negative `F.pad`), padded with `padding_val`
tokens up to `capacity` when undersized, and the recorded per-row true
length `batch_row_len[i]` equals `min(group_size, capacity)`
(lines 93-100). -/
theorem C4_group_crop_pad (cfg : Cfg) (ws : ℕ → WorkerData) (e i : ℕ)
    (hcap : 0 ≤ capacityZ cfg) (hi : i < nRows cfg ws e) :
    ∃ bt, batchToks cfg ws e = some bt ∧
      bt.getD i []
        = (groupToks cfg ws e i).take (capacity cfg)
          ++ List.replicate (capacity cfg - (groupToks cfg ws e i).length) (padTok cfg) ∧
      (groupToks cfg ws e i).length = (rowLens cfg ws e).getD i 0 ∧
      rowLenB cfg ws e i = min ((rowLens cfg ws e).getD i 0) (capacity cfg) := by
  have hne : nRows cfg ws e ≠ 0 := by omega
  refine ⟨_, batchToks_some cfg ws e hne, ?_, ?_, rfl⟩
  · rw [getD_map_range _ _ _ hi]
    exact padFn_eq cfg _ hcap
  · unfold groupToks
    rw [List.length_map]
    exact groupRecs_length cfg ws e i hi

theorem C4_group_crop_pad_witness :
    ∃ bt, batchToks trCfg trWs 0 = some bt ∧
      bt.getD 0 []
        = (groupToks trCfg trWs 0 0).take (capacity trCfg)
          ++ List.replicate (capacity trCfg - (groupToks trCfg trWs 0 0).length) (padTok trCfg) ∧
      (groupToks trCfg trWs 0 0).length = (rowLens trCfg trWs 0).getD 0 0 ∧
      rowLenB trCfg trWs 0 0 = min ((rowLens trCfg trWs 0).getD 0 0) (capacity trCfg) :=
  C4_group_crop_pad trCfg trWs 0 0 (by with_unfolding_all decide)
    (by with_unfolding_all decide)

/-- The records beyond `capacity` in each received row group — exactly
the positions lines 105-107 never scatter an expert result into. -/
def truncRecs (cfg : Cfg) (ws : ℕ → WorkerData) (e : ℕ) :
    List ((ℕ × ℕ × ℕ) × Token) :=
  (List.range (nRows cfg ws e)).flatMap fun i =>
    (groupRecs cfg ws e i).drop (capacity cfg)

/-- C7: capacity truncation is deterministic: the truncated subset equals
an explicit function of the received records and the capacity — for each
distinct global row id, all but the first `capacity` received records of
that row, in the fixed arrival order (sender rank, then sender-local
order).  No run-dependent choice enters the grouping or the drop. -/
theorem C7_truncation_deterministic (cfg : Cfg) (ws : ℕ → WorkerData) (e : ℕ) :
    truncRecs cfg ws e
      = (uniqRows cfg ws e).flatMap fun u =>
          ((recvRecs cfg ws e).filter fun r => r.1.1 == u).drop (capacity cfg) := by
  unfold truncRecs
  have h1 : ∀ i ∈ List.range (nRows cfg ws e),
      (groupRecs cfg ws e i).drop (capacity cfg)
        = ((recvRecs cfg ws e).filter fun r =>
            r.1.1 == (uniqRows cfg ws e).getD i 0).drop (capacity cfg) := by
    intro i hi
    rw [groupRecs_eq_filter cfg ws e i (List.mem_range.mp hi)]
  rw [List.flatMap_def, List.map_congr_left h1, ← List.flatMap_def]
  have h2 : nRows cfg ws e = (uniqRows cfg ws e).length := rfl
  rw [h2]
  conv_rhs => rw [← map_getD_range (uniqRows cfg ws e) 0]
  rw [List.flatMap_map]

/-- C2: whenever the forward pass completes, every worker's output batch
has exactly the shape of its input batch: `B` rows of `T` positions of
`C`-wide feature vectors (`x.view(B, T, C)`, line 115). -/
theorem C2_output_shape (cfg : Cfg) (exp : ℕ → Token → Token)
    (ws : ℕ → WorkerData) (outs : List (List (List Token)))
    (hout : systemForward cfg exp ws = some outs) :
    outs.length = cfg.W ∧
    ∀ j, j < cfg.W →
      (outs.getD j []).length = (ws j).x.length ∧
      ∀ b, b < (ws j).x.length →
        ((outs.getD j []).getD b []).length = cfg.T ∧
        ∀ t, t < cfg.T → (((outs.getD j []).getD b []).getD t []).length = cfg.C := by
  unfold systemForward at hout
  rcases seqOpt_some [] _ outs hout with ⟨hlen, hget⟩
  constructor
  · rw [hlen]; simp
  · intro j hj
    have h1 := hget j (by simpa using hj)
    rw [getD_map_range _ _ _ hj none] at h1
    unfold workerForward at h1
    rcases Option.bind_eq_some.mp h1 with ⟨flat, hflat, hview⟩
    unfold viewBTC at hview
    by_cases hcond : flat.length = (ws j).x.length * cfg.T
        ∧ ∀ tok ∈ flat, tok.length = cfg.C
    · rw [if_pos hcond] at hview
      have hout_j : outs.getD j []
          = (List.range (ws j).x.length).map fun b =>
              (List.range cfg.T).map fun t => flat.getD (b * cfg.T + t) [] :=
        (Option.some.inj hview).symm
      rw [hout_j]
      refine ⟨by simp, ?_⟩
      intro b hb
      rw [getD_map_range _ _ _ hb]
      refine ⟨by simp, ?_⟩
      intro t ht
      rw [getD_map_range _ _ _ ht]
      have hidx : b * cfg.T + t < flat.length := by
        rw [hcond.1]
        have h2 : b * cfg.T + t < (b + 1) * cfg.T := by
          rw [Nat.succ_mul]; omega
        have h3 : (b + 1) * cfg.T ≤ (ws j).x.length * cfg.T :=
          Nat.mul_le_mul_right _ hb
        omega
      have hmem : flat.getD (b * cfg.T + t) [] ∈ flat := by
        rw [List.getD_eq_getElem _ _ hidx]
        exact List.getElem_mem hidx
      exact hcond.2 _ hmem
    · rw [if_neg hcond] at hview
      simp at hview

theorem C2_output_shape_witness :
    ([[[[(6 : ℚ)], [2]]], [[[15], [28]]]] : List (List (List Token))).length = exCfg.W :=
  (C2_output_shape exCfg exExp exWs [[[[(6 : ℚ)], [2]]], [[[15], [28]]]]
    (by with_unfolding_all decide)).1

/-- C10: an expert slot whose element was capacity-truncated comes back
as a full `padding_val` token (the reset buffer of line 103 is never
overwritten at truncated positions) and is then scaled by the slot's
router weight (line 112), so it contributes `padding_val * weight` per
component to the combined output; with a positive weight and `C ≥ 1`
this contribution is exactly zero precisely when `padding_val = 0` (the
default configuration). -/
theorem C10_truncated_slot_contribution (cfg : Cfg) (exp : ℕ → Token → Token)
    (ws : ℕ → WorkerData) (j e i m : ℕ)
    (hj : j < cfg.W) (he : e < cfg.W) (hcap : 0 ≤ capacityZ cfg)
    (hm : m < sendCount cfg ws j e) (hi : i < nRows cfg ws e)
    (hq1 : rowOffset cfg ws e i + rowLenB cfg ws e i ≤ revOffset cfg ws e j + m)
    (hq2 : revOffset cfg ws e j + m
      < rowOffset cfg ws e i + (rowLens cfg ws e).getD i 0)
    (ret sc : List Token) (hret : retToks cfg exp ws j = some ret)
    (hsc : scaledOf cfg exp ws j = some sc) :
    sc.getD (sendOffset cfg ws j e + m) []
      = List.replicate cfg.C
          (cfg.padVal * (weightsOf cfg ws j).getD (sendOffset cfg ws j e + m) 0) ∧
    (0 < (weightsOf cfg ws j).getD (sendOffset cfg ws j e + m) 0 → 0 < cfg.C →
      (sc.getD (sendOffset cfg ws j e + m) [] = List.replicate cfg.C 0
        ↔ cfg.padVal = 0)) := by
  have hple : sendOffset cfg ws j e + sendCount cfg ws j e
      ≤ (((List.range cfg.W).map fun i2 => sendCount cfg ws j i2)).sum := by
    unfold sendOffset
    calc (((List.range e).map fun i2 => sendCount cfg ws j i2)).sum
          + sendCount cfg ws j e
        = (((List.range (e + 1)).map fun i2 => sendCount cfg ws j i2)).sum :=
          (sum_map_range_succ _ e).symm
      _ ≤ (((List.range cfg.W).map fun i2 => sendCount cfg ws j i2)).sum :=
          sum_map_range_le _ (Nat.succ_le_of_lt he)
  have hp1 : sendOffset cfg ws j e + m < (weightsOf cfg ws j).length := by
    rw [weightsOf_length]
    omega
  have hp2 : sendOffset cfg ws j e + m < ret.length := by
    rw [retToks_length cfg exp ws j hj hcap hret]
    omega
  rcases retToks_getD cfg exp ws j e m hj he hcap hm hret with ⟨res, hres, hgd⟩
  have hm2a : rowLenB cfg ws e i
      ≤ (revOffset cfg ws e j + m) - rowOffset cfg ws e i := by omega
  have hm2b : (revOffset cfg ws e j + m) - rowOffset cfg ws e i
      < (rowLens cfg ws e).getD i 0 := by omega
  have htr := resToks_getD_trunc cfg exp ws e i
    ((revOffset cfg ws e j + m) - rowOffset cfg ws e i) hcap hres hi hm2a hm2b
  have hqr : rowOffset cfg ws e i
      + ((revOffset cfg ws e j + m) - rowOffset cfg ws e i)
      = revOffset cfg ws e j + m := by omega
  rw [hqr] at htr
  have hsc2 := scaledOf_getD cfg exp ws j (sendOffset cfg ws j e + m) hret hsc hp1 hp2
  rw [hgd, htr] at hsc2
  unfold padTok at hsc2
  rw [List.map_replicate] at hsc2
  refine ⟨hsc2, ?_⟩
  intro hw hC
  rw [hsc2, replicate_inj _ _ _ hC, mul_eq_zero]
  constructor
  · rintro (h | h)
    · exact h
    · exact absurd h (ne_of_gt hw)
  · exact fun h => Or.inl h

theorem C10_truncated_slot_contribution_witness :
    ([[(6 : ℚ)], [30]] : List Token).getD (sendOffset trCfg trWs 0 0 + 1) []
      = List.replicate trCfg.C
          (trCfg.padVal * (weightsOf trCfg trWs 0).getD (sendOffset trCfg trWs 0 0 + 1) 0) :=
  (C10_truncated_slot_contribution trCfg exExp trWs 0 0 0 1
    (by decide) (by decide) (by with_unfolding_all decide)
    (by with_unfolding_all decide) (by with_unfolding_all decide)
    (by with_unfolding_all decide) (by with_unfolding_all decide)
    [[(3 : ℚ)], [5]] [[(6 : ℚ)], [30]]
    (by with_unfolding_all decide) (by with_unfolding_all decide)).1

end MoE
